import Mathlib

/-
Verification of the smokey contextual-bandit program (src/main.go) against its
natural-language specification.

Shallow embedding conventions:
- Go float64 values are modelled as rationals (ℚ): the program only adds,
  multiplies and divides reward values, and every claim is about exact
  arithmetic relationships (the spec allows floating-point tolerance; over ℚ
  the relationships hold exactly).
- Go int is modelled as ℤ.
- Go maps are modelled as association lists (List (key × value)) with
  first-match lookup; Go map assignment replaces the binding in place
  (mapInsert).  A map read of a missing key yields the zero value, modelled
  with Option.getD where the Go code relies on it.
- Go panics (out-of-range slice index, rand.Intn(0)) are modelled by Option:
  none means the operation panics and the process dies.
- The global math/rand generator is modelled by an Rng record carrying two
  oracle streams (one read by rand.Float64, one by rand.Intn) and a shared
  position that every call advances, matching the single global generator.
- *Bandit pointer identity (the slice []*Bandit and the == comparison in
  UpdateReward) is modelled by a ref field: distinct allocations carry
  distinct refs.
-/

namespace Smokey

/-- Model of the Go struct Context (src/main.go:17-22): an immutable value
type with four string fields, compared by full field equality. -/
structure Context where
  UserID : String
  TimeOfDay : String
  Weekday : String
  Device : String
deriving DecidableEq

/-- Model of the Go struct Bandit (src/main.go:24-27).  ref models the
identity of the *Bandit pointer: each Go allocation yields a fresh ref, and
the == comparison in UpdateReward compares refs. -/
structure Bandit where
  ref : ℕ
  ItemID : String
  ContextRewards : List (Context × ℚ)
deriving DecidableEq

/-- Model of the Go struct EpsilonGreedyStrategy (src/main.go:43-48); the
two Go maps are association lists with first-match lookup. -/
structure EpsilonGreedyStrategy where
  Epsilon : ℚ
  Bandits : List Bandit
  Rewards : List (Context × List ℚ)
  Counts : List (Context × List ℤ)
deriving DecidableEq

/-- First-match association-list lookup: models a Go map read m[k] (comma-ok
form; the caller applies Option.getD for the zero-value form). -/
def mapLookup {α β : Type} [DecidableEq α] (m : List (α × β)) (k : α) : Option β :=
  match m with
  | [] => none
  | (k2, v) :: rest => if k2 = k then some v else mapLookup rest k

/-- Association-list update: models a Go map assignment m[k] = v, replacing
the existing binding in place or appending a new one. -/
def mapInsert {α β : Type} [DecidableEq α] (m : List (α × β)) (k : α) (v : β) :
    List (α × β) :=
  match m with
  | [] => [(k, v)]
  | (k2, v2) :: rest =>
      if k2 = k then (k, v) :: rest else (k2, v2) :: mapInsert rest k v

/-- Well-formedness of an association list as a map image: no duplicate keys.
Every Go map satisfies this. -/
def keysNodup {α β : Type} (m : List (α × β)) : Prop :=
  (m.map Prod.fst).Nodup

instance {α β : Type} (m : List (α × β)) [DecidableEq α] :
    Decidable (keysNodup m) := by
  unfold keysNodup
  infer_instance

/-- Model of the global math/rand generator.  floats is the stream of
rand.Float64 outputs (each in [0,1)), ints the stream of raw draws reduced
mod n by rand.Intn; pos is the shared generator position, advanced by every
call (there is a single global generator in the Go program). -/
structure Rng where
  floats : ℕ → ℚ
  ints : ℕ → ℕ
  pos : ℕ

/-- Advancing the generator by one consumed value. -/
def Rng.next (r : Rng) : Rng :=
  { r with pos := r.pos + 1 }

/-- Model of the exploration arm draw s.Bandits[rand.Intn(len(s.Bandits))]
(src/main.go:61).  rand.Intn(0) panics (none); otherwise the drawn index is
the next ints oracle value reduced mod the catalog size, which ranges
uniformly over [0, len). -/
def explore (s : EpsilonGreedyStrategy) (r : Rng) : Option (Bandit × Rng) :=
  if s.Bandits.length = 0 then none
  else
    match s.Bandits.get? (r.ints r.pos % s.Bandits.length) with
    | none => none
    | some b => some (b, r.next)

/-- Model of the exploitation scan (src/main.go:65-72): walks the reward
slice tracking (maxReward, maxIndex), replacing only on strictly greater
reward, so ties keep the earlier index. -/
def maxLoop : List ℚ → ℕ → ℚ → ℕ → ℚ × ℕ
  | [], _, mr, mi => (mr, mi)
  | q :: rest, i, mr, mi =>
      if mr < q then maxLoop rest (i + 1) q i else maxLoop rest (i + 1) mr mi

/-- Model of EpsilonGreedyStrategy.SelectBandit (src/main.go:58-75).
rand.Float64() is always consumed first; the branch condition is
draw < Epsilon || len(Rewards[ctx]) == 0 (a missing context key reads as the
nil slice, length 0).  The exploit branch reads Rewards[ctx][0] (the branch
guard guarantees the slice is nonempty) and scans for the max; the final
s.Bandits[maxIndex] panics (none) if maxIndex is out of range of the
catalog. -/
def SelectBandit (s : EpsilonGreedyStrategy) (ctx : Context) (r : Rng) :
    Option (Bandit × Rng) :=
  let d := r.floats r.pos
  let r1 := r.next
  let rs := (mapLookup s.Rewards ctx).getD []
  if d < s.Epsilon ∨ rs.length = 0 then
    explore s r1
  else
    match rs with
    | [] => none
    | q0 :: _ =>
        match s.Bandits.get? (maxLoop rs 0 q0 0).2 with
        | none => none
        | some b => some (b, r1)

/-- Model of Bandit.Pull (src/main.go:29-36): reads the synthetic
per-context accumulator, defaulting to 0 when the context has no entry. -/
def Bandit.Pull (b : Bandit) (ctx : Context) : ℚ :=
  (mapLookup b.ContextRewards ctx).getD 0

/-- One iteration of the UpdateReward loop body (src/main.go:78-83) at index
i: when s.Bandits[i] == b (pointer comparison, modelled by ref equality),
increment s.Counts[ctx][i] and recompute s.Rewards[ctx][i] with the
incremental-mean formula, reading the already-incremented count.  A missing
context key reads as the nil slice, so the index accesses panic (none).
Division is exact over ℚ; the Go float division by float64(newCount) can
only be a division by zero if the stored count was -1, which the program
never produces. -/
def updateRewardStep (ctx : Context) (b : Bandit) (reward : ℚ)
    (s : EpsilonGreedyStrategy) (i : ℕ) : Option EpsilonGreedyStrategy :=
  match s.Bandits.get? i with
  | none => some s
  | some bi =>
      if bi.ref = b.ref then
        let cl := (mapLookup s.Counts ctx).getD []
        let rl := (mapLookup s.Rewards ctx).getD []
        match cl.get? i with
        | none => none
        | some c0 =>
            match rl.get? i with
            | none => none
            | some q0 =>
                some { s with
                  Counts := mapInsert s.Counts ctx (cl.set i (c0 + 1)),
                  Rewards := mapInsert s.Rewards ctx
                    (rl.set i ((q0 * (((c0 + 1 - 1 : ℤ)) : ℚ) + reward) /
                      (((c0 + 1 : ℤ)) : ℚ))) }
      else some s

/-- The `for i := range s.Bandits` loop of UpdateReward, over an explicit
index list, threading the state; a panic (none) aborts the loop. -/
def updateRewardLoop (ctx : Context) (b : Bandit) (reward : ℚ) :
    List ℕ → EpsilonGreedyStrategy → Option EpsilonGreedyStrategy
  | [], s => some s
  | i :: rest, s =>
      match updateRewardStep ctx b reward s i with
      | none => none
      | some s2 => updateRewardLoop ctx b reward rest s2

/-- Model of EpsilonGreedyStrategy.UpdateReward (src/main.go:77-84): the loop
runs over every catalog index and updates each one whose *Bandit pointer
equals b. -/
def UpdateReward (s : EpsilonGreedyStrategy) (ctx : Context) (b : Bandit)
    (reward : ℚ) : Option EpsilonGreedyStrategy :=
  updateRewardLoop ctx b reward (List.range s.Bandits.length) s

/-- K successive UpdateReward calls for the same (context, arm) pair with
the given observed rewards, as quantified by the spec. -/
def updateRewardK (ctx : Context) (b : Bandit) :
    List ℚ → EpsilonGreedyStrategy → Option EpsilonGreedyStrategy
  | [], s => some s
  | q :: qs, s =>
      match UpdateReward s ctx b q with
      | none => none
      | some s2 => updateRewardK ctx b qs s2

/-- Concrete context used by witnesses and counterexamples: the Context a
training record with no timestamp for user "u" on device "d" maps to. -/
def ctxW : Context := ⟨"u", "", "", "d"⟩

/-- Concrete single-arm catalog entry used by witnesses. -/
def banditW : Bandit := ⟨0, "A", []⟩

/-- Concrete one-arm strategy whose slots for ctxW are initialized to zero. -/
def stratW : EpsilonGreedyStrategy := ⟨1/10, [banditW], [(ctxW, [0])], [(ctxW, [0])]⟩

/-- Zero random stream at position p: every rand.Float64 output is 0 and
every raw rand.Intn draw is 0. -/
def rngZero (p : ℕ) : Rng := ⟨fun _ => 0, fun _ => 0, p⟩

/-- The data gob transmits for one *Bandit: its exported fields ItemID and
ContextRewards.  The pointer itself is not transmitted; decoding allocates
fresh *Bandit values. -/
structure BanditData where
  ItemID : String
  ContextRewards : List (Context × ℚ)
deriving DecidableEq

/-- Model of the byte stream SaveState (src/main.go:86-99) writes: gob
encodes every exported field reachable from the strategy value — Epsilon,
the Bandits slice (dereferenced, each bandit with its ItemID and its whole
ContextRewards accumulator table) and the Rewards and Counts maps.  gob
omits zero-valued fields from the wire, but decoding into the select
driver's freshly allocated receiver restores the same contents either way,
so the omission is not modelled. -/
structure SavedBlob where
  Epsilon : ℚ
  Bandits : List BanditData
  Rewards : List (Context × List ℚ)
  Counts : List (Context × List ℤ)
deriving DecidableEq

/-- Model of EpsilonGreedyStrategy.SaveState (src/main.go:86-99): encoder
Encode(s) serializes the full strategy value. -/
def SaveState (s : EpsilonGreedyStrategy) : SavedBlob :=
  ⟨s.Epsilon, s.Bandits.map (fun b => ⟨b.ItemID, b.ContextRewards⟩),
   s.Rewards, s.Counts⟩

/-- Fresh *Bandit allocations for decoded bandit data: distinct new pointer
identities refs n, n+1, ... distinct from nothing else alive in the select
process. -/
def withRefs : List BanditData → ℕ → List Bandit
  | [], _ => []
  | d :: rest, n => ⟨n, d.ItemID, d.ContextRewards⟩ :: withRefs rest (n + 1)

/-- Model of EpsilonGreedyStrategy.LoadState (src/main.go:101-114): gob
decoding into the receiver replaces Epsilon and the Bandits slice and
stores each transmitted map entry into the receiver's (freshly allocated,
empty) maps. -/
def LoadState (s : EpsilonGreedyStrategy) (blob : SavedBlob) :
    EpsilonGreedyStrategy :=
  ⟨blob.Epsilon, withRefs blob.Bandits 0,
   blob.Rewards.foldl (fun m kv => mapInsert m kv.1 kv.2) s.Rewards,
   blob.Counts.foldl (fun m kv => mapInsert m kv.1 kv.2) s.Counts⟩

/-- The receiver strategy loadModelAndSelectAnItem (src/main.go:150-155)
allocates before loading: epsilon 0.1, nil bandits, empty maps. -/
def freshStrategy : EpsilonGreedyStrategy := ⟨1/10, [], [], []⟩

/-- Model of loadModelAndSelectAnItem (src/main.go:148-167): the receiver
strategy is allocated fresh; LoadState's error return is discarded, so on a
read failure (loadResult = none) the fresh strategy is used as-is; then one
SelectBandit call picks the arm whose ItemID is reported. -/
def loadModelAndSelectAnItem (loadResult : Option SavedBlob)
    (userId timeOfDay weekday device : String) (r : Rng) :
    Option (String × Rng) :=
  let strategy := match loadResult with
    | none => freshStrategy
    | some blob => LoadState freshStrategy blob
  let ctx : Context := ⟨userId, timeOfDay, weekday, device⟩
  match SelectBandit strategy ctx r with
  | none => none
  | some br => some (br.1.ItemID, br.2)

/-- The timestamp information the row loop reads when Valid: Hour is
DateTime.Time.Hour; WeekdayLower models strings.ToLower(t.Weekday().String())
— the civil-date-to-weekday conversion happens inside Go's time package, an
external collaborator. -/
structure DateParts where
  Hour : ℕ
  WeekdayLower : String
deriving DecidableEq

/-- Model of the Go struct TrainingData (src/main.go:50-56): one
interaction record of the warehouse query; Timestamp = none models
NullDateTime with Valid = false. -/
structure TrainingData where
  UserID : String
  ItemID : String
  Timestamp : Option DateParts
  HasClick : Bool
  Device : String
deriving DecidableEq

/-- The time-of-day bucketing of src/main.go:208-220. -/
def timeOfDayLabel (hour : ℕ) : String :=
  if hour < 4 then "night"
  else if hour < 12 then "morning"
  else if hour < 18 then "afternoon"
  else if hour < 22 then "evening"
  else "night"

/-- The Context a row maps to (src/main.go:206-228): both labels stay empty
when the timestamp is absent. -/
def deriveContext (row : TrainingData) : Context :=
  match row.Timestamp with
  | none => ⟨row.UserID, "", "", row.Device⟩
  | some dt => ⟨row.UserID, timeOfDayLabel dt.Hour, dt.WeekdayLower, row.Device⟩

/-- The accumulator update for an existing arm (src/main.go:235-240): add
1.0 on a click, subtract 0.1 on a non-click; the Go read-modify-write of a
missing map entry reads the zero value. -/
def recordReward (b : Bandit) (click : Bool) (ctx : Context) : Bandit :=
  { b with
    ContextRewards :=
      mapInsert b.ContextRewards ctx
        ((mapLookup b.ContextRewards ctx).getD 0 +
          (if click then 1 else -(1/10))) }

/-- The scan over the bandits slice (src/main.go:232-244): the first bandit
with the row's ItemID is updated in place and the loop breaks; none means
no bandit matched (found stays false). -/
def updateExisting : List Bandit → String → Bool → Context → Option (List Bandit)
  | [], _, _, _ => none
  | b :: rest, item, click, ctx =>
      if b.ItemID = item then some (recordReward b click ctx :: rest)
      else
        match updateExisting rest item click ctx with
        | none => none
        | some rest2 => some (b :: rest2)

/-- One iteration of the row loop of getTrainingData (src/main.go:196-259):
append the row's context, then either update the first bandit carrying this
ItemID or append a freshly allocated bandit (fresh pointer identity:
refs are-allocated 0, 1, 2, ... in creation order) whose accumulator starts
at 1.0 on a click and 0.0 on a non-click. -/
def processRow (st : List Context × List Bandit) (row : TrainingData) :
    List Context × List Bandit :=
  let ctx := deriveContext row
  let ctxs := st.1 ++ [ctx]
  match updateExisting st.2 row.ItemID row.HasClick ctx with
  | some bs2 => (ctxs, bs2)
  | none =>
      (ctxs, st.2 ++ [⟨st.2.length, row.ItemID,
        [(ctx, if row.HasClick then 1 else 0)]⟩])

/-- Model of getTrainingData (src/main.go:169-265) given the rows the
warehouse query returned (the BigQuery client and its iterator are external
collaborators): fold the row loop over the ordered records. -/
def getTrainingData (rows : List TrainingData) : List Context × List Bandit :=
  rows.foldl processRow ([], [])

/-- A non-click record with no timestamp, used by counterexamples. -/
def rowW : TrainingData := ⟨"u", "A", none, false, "d"⟩

/-- One simulated trial of the training loop body (src/main.go:133-135):
select a bandit, pull its synthetic accumulator for the context, feed that
value into UpdateReward. -/
def trial (ctx : Context) : EpsilonGreedyStrategy × Rng →
    Option (EpsilonGreedyStrategy × Rng)
  | (s, r) =>
      match SelectBandit s ctx r with
      | none => none
      | some br =>
          match UpdateReward s ctx br.1 (br.1.Pull ctx) with
          | none => none
          | some s2 => some (s2, br.2)

/-- The inner for loop of the training driver (src/main.go:132-136): n
successive trials. -/
def trials (ctx : Context) : ℕ → EpsilonGreedyStrategy × Rng →
    Option (EpsilonGreedyStrategy × Rng)
  | 0, sr => some sr
  | n + 1, sr =>
      match trial ctx sr with
      | none => none
      | some sr2 => trials ctx n sr2

/-- The outer training loop (src/main.go:129-137): one iteration per entry
of the contexts list — one entry per training record, duplicates included —
each iteration resetting that entry's reward/count slots to zeros of the
catalog length (make of len(bandits) zeros) before its 10000 trials. -/
def trainContexts : List Context → EpsilonGreedyStrategy × Rng →
    Option (EpsilonGreedyStrategy × Rng)
  | [], sr => some sr
  | c :: rest, (s, r) =>
      match trials c 10000
        ({ s with
            Rewards := mapInsert s.Rewards c (List.replicate s.Bandits.length 0),
            Counts := mapInsert s.Counts c (List.replicate s.Bandits.length 0) },
          r) with
      | none => none
      | some sr2 => trainContexts rest sr2

/-- Model of trainModel (src/main.go:116-146) up to the SaveState call:
build contexts and bandits from the training rows, allocate the strategy
with epsilon 0.1 and empty maps, run the training loop. -/
def trainModel (rows : List TrainingData) (r : Rng) :
    Option (EpsilonGreedyStrategy × Rng) :=
  trainContexts (getTrainingData rows).1
    (⟨1/10, (getTrainingData rows).2, [], []⟩, r)

/-- The arm "A" as built from two non-click records (accumulator -0.1 for
ctxW). -/
def banditA : Bandit := ⟨0, "A", [(ctxW, -(1/10))]⟩

/-- The strategy trainModel allocates for the catalog [banditA]. -/
def sInit : EpsilonGreedyStrategy := ⟨1/10, [banditA], [], []⟩

/-- Training-state shape reached while training the single arm banditA on
the single context ctxW: reward slot x, count slot k. -/
def sTrain (x : ℚ) (k : ℤ) : EpsilonGreedyStrategy :=
  ⟨1/10, [banditA], [(ctxW, [x])], [(ctxW, [k])]⟩

theorem mapLookup_insert_self {α β : Type} [DecidableEq α]
    (m : List (α × β)) (k : α) (v : β) :
    mapLookup (mapInsert m k v) k = some v := by
  induction m with
  | nil => simp [mapLookup, mapInsert]
  | cons hd tl ih =>
      obtain ⟨k2, v2⟩ := hd
      by_cases h : k2 = k
      · simp [mapLookup, mapInsert, h]
      · simp [mapLookup, mapInsert, h, ih]

theorem mapLookup_insert_ne {α β : Type} [DecidableEq α]
    (m : List (α × β)) (k c : α) (v : β) (hne : k ≠ c) :
    mapLookup (mapInsert m k v) c = mapLookup m c := by
  induction m with
  | nil => simp [mapLookup, mapInsert, hne]
  | cons hd tl ih =>
      obtain ⟨k2, v2⟩ := hd
      by_cases h : k2 = k
      · subst h
        simp [mapLookup, mapInsert, hne]
      · simp [mapLookup, mapInsert, h, ih]

theorem mapLookup_eq_none_of_not_mem {α β : Type} [DecidableEq α]
    (m : List (α × β)) (k : α) (h : k ∉ m.map Prod.fst) :
    mapLookup m k = none := by
  induction m with
  | nil => rfl
  | cons hd tl ih =>
      obtain ⟨k2, v2⟩ := hd
      simp only [List.map_cons, List.mem_cons] at h
      push_neg at h
      have h1 : k2 ≠ k := fun hh => h.1 hh.symm
      simp [mapLookup, h1, ih h.2]

theorem mapLookup_foldl_insert {α β : Type} [DecidableEq α] :
    ∀ (entries acc : List (α × β)) (c : α), keysNodup entries →
    (∀ k v, (k, v) ∈ entries → mapLookup acc k = none) →
    mapLookup (entries.foldl (fun m kv => mapInsert m kv.1 kv.2) acc) c =
      match mapLookup entries c with
      | some v => some v
      | none => mapLookup acc c := by
  intro entries
  induction entries with
  | nil => intro acc c _ _; rfl
  | cons hd tl ih =>
      intro acc c hnd hacc
      obtain ⟨k, v⟩ := hd
      have hknotin : k ∉ tl.map Prod.fst := by
        simpa [keysNodup] using (List.nodup_cons.mp hnd).1
      have hndtl : keysNodup tl := (List.nodup_cons.mp (by simpa [keysNodup] using hnd)).2
      have hacc2 : ∀ k2 v2, (k2, v2) ∈ tl → mapLookup (mapInsert acc k v) k2 = none := by
        intro k2 v2 hmem
        have hk2 : k2 ∈ tl.map Prod.fst := by
          exact List.mem_map.mpr ⟨(k2, v2), hmem, rfl⟩
        have hne : k ≠ k2 := fun h => hknotin (h ▸ hk2)
        rw [mapLookup_insert_ne acc k k2 v hne]
        exact hacc k2 v2 (List.mem_cons_of_mem _ hmem)
      have step : (((k, v) :: tl).foldl (fun m kv => mapInsert m kv.1 kv.2) acc) =
          tl.foldl (fun m kv => mapInsert m kv.1 kv.2) (mapInsert acc k v) := rfl
      rw [step, ih (mapInsert acc k v) c hndtl hacc2]
      by_cases hkc : k = c
      · subst hkc
        have htlnone : mapLookup tl k = none :=
          mapLookup_eq_none_of_not_mem tl k hknotin
        simp [mapLookup, htlnone, mapLookup_insert_self]
      · have h2 : mapLookup (mapInsert acc k v) c = mapLookup acc c :=
          mapLookup_insert_ne acc k c v hkc
        have hkc2 : ¬ (k = c) := hkc
        cases htl : mapLookup tl c <;> simp [mapLookup, hkc2, htl, h2]

theorem maxLoop_spec (full : List ℚ) :
    ∀ (l : List ℚ) (i mi : ℕ) (mr : ℚ),
    (∀ k, l.get? k = full.get? (i + k)) →
    full.get? mi = some mr →
    (∀ j x, j < i → full.get? j = some x → x ≤ mr) →
    (∀ j x, j < mi → full.get? j = some x → x < mr) →
    (full.get? (maxLoop l i mr mi).2 = some (maxLoop l i mr mi).1 ∧
     (∀ j x, j < i + l.length → full.get? j = some x → x ≤ (maxLoop l i mr mi).1) ∧
     (∀ j x, j < (maxLoop l i mr mi).2 → full.get? j = some x → x < (maxLoop l i mr mi).1)) := by
  intro l
  induction l with
  | nil =>
      intro i mi mr _ hmi hle hlt
      refine ⟨hmi, ?_, hlt⟩
      intro j x hj hx
      exact hle j x (by simpa using hj) hx
  | cons q rest ih =>
      intro i mi mr hsuf hmi hle hlt
      have hq : full.get? i = some q := by
        have := hsuf 0
        simpa using this.symm
      have hsuf2 : ∀ k, rest.get? k = full.get? (i + 1 + k) := by
        intro k
        have := hsuf (k + 1)
        simpa [Nat.add_assoc, Nat.add_comm 1 k] using this
      by_cases hcmp : mr < q
      · have hres : maxLoop (q :: rest) i mr mi = maxLoop rest (i + 1) q i := by
          simp [maxLoop, hcmp]
        rw [hres]
        have hle2 : ∀ j x, j < i + 1 → full.get? j = some x → x ≤ q := by
          intro j x hj hx
          rcases Nat.lt_succ_iff_lt_or_eq.mp hj with hj2 | hj2
          · exact le_of_lt (lt_of_le_of_lt (hle j x hj2 hx) hcmp)
          · subst hj2
            rw [hq] at hx
            injection hx with hx2
            exact le_of_eq hx2.symm
        have hlt2 : ∀ j x, j < i → full.get? j = some x → x < q := by
          intro j x hj hx
          exact lt_of_le_of_lt (hle j x hj hx) hcmp
        have := ih (i + 1) i q hsuf2 hq hle2 hlt2
        refine ⟨this.1, ?_, this.2.2⟩
        intro j x hj hx
        exact this.2.1 j x (by simp only [List.length_cons] at hj; omega) hx
      · have hres : maxLoop (q :: rest) i mr mi = maxLoop rest (i + 1) mr mi := by
          simp [maxLoop, hcmp]
        rw [hres]
        have hle2 : ∀ j x, j < i + 1 → full.get? j = some x → x ≤ mr := by
          intro j x hj hx
          rcases Nat.lt_succ_iff_lt_or_eq.mp hj with hj2 | hj2
          · exact hle j x hj2 hx
          · subst hj2
            rw [hq] at hx
            injection hx with hx2
            subst hx2
            exact le_of_not_lt hcmp
        have := ih (i + 1) mi mr hsuf2 hmi hle2 hlt
        refine ⟨this.1, ?_, this.2.2⟩
        intro j x hj hx
        exact this.2.1 j x (by simp only [List.length_cons] at hj; omega) hx

theorem updateRewardLoop_noop (ctx : Context) (b : Bandit) (reward : ℚ) :
    ∀ (l : List ℕ) (s : EpsilonGreedyStrategy),
    (∀ j, j ∈ l → ∀ bj, s.Bandits.get? j = some bj → bj.ref ≠ b.ref) →
    updateRewardLoop ctx b reward l s = some s := by
  intro l
  induction l with
  | nil => intro s _; rfl
  | cons i rest ih =>
      intro s h
      have hstep : updateRewardStep ctx b reward s i = some s := by
        unfold updateRewardStep
        cases hbi : s.Bandits.get? i with
        | none => rfl
        | some bi =>
            have hne : bi.ref ≠ b.ref := h i (List.mem_cons_self i rest) bi hbi
            simp [hne]
      rw [updateRewardLoop, hstep]
      exact ih s (fun j hj => h j (List.mem_cons_of_mem _ hj))

theorem updateRewardLoop_append (ctx : Context) (b : Bandit) (reward : ℚ) :
    ∀ (l1 l2 : List ℕ) (s : EpsilonGreedyStrategy),
    updateRewardLoop ctx b reward (l1 ++ l2) s =
      match updateRewardLoop ctx b reward l1 s with
      | none => none
      | some s2 => updateRewardLoop ctx b reward l2 s2 := by
  intro l1
  induction l1 with
  | nil => intro l2 s; rfl
  | cons i rest ih =>
      intro l2 s
      simp only [List.cons_append, updateRewardLoop]
      cases updateRewardStep ctx b reward s i with
      | none => rfl
      | some s2 => exact ih l2 s2

theorem range_split (N i : ℕ) (h : i < N) :
    List.range N = List.range' 0 i ++ i :: List.range' (i + 1) (N - i - 1) := by
  have h2 := List.range'_append 0 i (N - i) 1
  simp only [Nat.one_mul, Nat.zero_add] at h2
  have h3 : N - i + i = N := by omega
  rw [h3] at h2
  have h4 : N - i = (N - i - 1) + 1 := by omega
  rw [List.range_eq_range', ← h2, h4, List.range'_succ]
  simp

theorem updateRewardStep_match (s : EpsilonGreedyStrategy) (ctx : Context)
    (b : Bandit) (q : ℚ) (i : ℕ) (cl : List ℤ) (rl : List ℚ) (c0 : ℤ) (q0 : ℚ)
    (hb : s.Bandits.get? i = some b)
    (hcl : mapLookup s.Counts ctx = some cl)
    (hrl : mapLookup s.Rewards ctx = some rl)
    (hc0 : cl.get? i = some c0) (hq0 : rl.get? i = some q0) :
    updateRewardStep ctx b q s i = some { s with
      Counts := mapInsert s.Counts ctx (cl.set i (c0 + 1)),
      Rewards := mapInsert s.Rewards ctx
        (rl.set i ((q0 * (((c0 + 1 - 1 : ℤ)) : ℚ) + q) / (((c0 + 1 : ℤ)) : ℚ))) } := by
  have hc0b : cl[i]? = some c0 := by rw [← List.get?_eq_getElem?]; exact hc0
  have hq0b : rl[i]? = some q0 := by rw [← List.get?_eq_getElem?]; exact hq0
  unfold updateRewardStep
  rw [hb]
  simp [hcl, hrl, hc0b, hq0b]

theorem UpdateReward_unique_match (s : EpsilonGreedyStrategy) (ctx : Context)
    (b : Bandit) (q : ℚ) (i : ℕ) (cl : List ℤ) (rl : List ℚ) (c0 : ℤ) (q0 : ℚ)
    (hb : s.Bandits.get? i = some b)
    (huniq : ∀ j, j ∈ List.range s.Bandits.length → j ≠ i →
       (s.Bandits.get? j).map Bandit.ref ≠ some b.ref)
    (hcl : mapLookup s.Counts ctx = some cl)
    (hrl : mapLookup s.Rewards ctx = some rl)
    (hc0 : cl.get? i = some c0) (hq0 : rl.get? i = some q0) :
    UpdateReward s ctx b q = some { s with
      Counts := mapInsert s.Counts ctx (cl.set i (c0 + 1)),
      Rewards := mapInsert s.Rewards ctx
        (rl.set i ((q0 * (((c0 + 1 - 1 : ℤ)) : ℚ) + q) / (((c0 + 1 : ℤ)) : ℚ))) } := by
  have hiN : i < s.Bandits.length := (List.get?_eq_some.mp hb).1
  have hN : s.Bandits.length = s.Bandits.length := rfl
  rw [UpdateReward, range_split s.Bandits.length i hiN, updateRewardLoop_append]
  have hpre : updateRewardLoop ctx b q (List.range' 0 i) s = some s := by
    apply updateRewardLoop_noop
    intro j hj bj hbj href
    have hji : j < i := by
      have := List.mem_range'_1.mp hj
      omega
    have hjne : j ≠ i := by omega
    have hjmem : j ∈ List.range s.Bandits.length := by
      have hjN : j < s.Bandits.length := by omega
      simpa [List.mem_range] using hjN
    exact huniq j hjmem hjne (by rw [hbj]; simp [href])
  rw [hpre]
  simp only [updateRewardLoop]
  rw [updateRewardStep_match s ctx b q i cl rl c0 q0 hb hcl hrl hc0 hq0]
  have htail : ∀ (s2 : EpsilonGreedyStrategy), s2.Bandits = s.Bandits →
      updateRewardLoop ctx b q
        (List.range' (i + 1) (s.Bandits.length - i - 1)) s2 = some s2 := by
    intro s2 hs2
    apply updateRewardLoop_noop
    intro j hj bj hbj
    intro href
    have hji : i + 1 ≤ j ∧ j < i + 1 + (s.Bandits.length - i - 1) :=
      List.mem_range'_1.mp hj
    have hjne : j ≠ i := by omega
    have hjmem : j ∈ List.range s.Bandits.length := by
      have hjN : j < s.Bandits.length := by omega
      simpa [List.mem_range] using hjN
    apply huniq j hjmem hjne
    rw [hs2] at hbj
    rw [hbj]
    simp [href]
  exact htail _ rfl

theorem updateRewardK_inv (ctx : Context) (b : Bandit) (i : ℕ) :
    ∀ (qs : List ℚ) (s : EpsilonGreedyStrategy) (cl : List ℤ) (rl : List ℚ)
      (k : ℕ) (S : ℚ),
    s.Bandits.get? i = some b →
    (∀ j, j ∈ List.range s.Bandits.length → j ≠ i →
       (s.Bandits.get? j).map Bandit.ref ≠ some b.ref) →
    mapLookup s.Counts ctx = some cl → cl.length = s.Bandits.length →
    cl.get? i = some ((k : ℤ)) →
    mapLookup s.Rewards ctx = some rl → rl.length = s.Bandits.length →
    rl.get? i = some (S / (k : ℚ)) → (k ≠ 0 ∨ S = 0) →
    ∃ s2 cl2 rl2,
      updateRewardK ctx b qs s = some s2 ∧
      s2.Bandits = s.Bandits ∧ s2.Epsilon = s.Epsilon ∧
      mapLookup s2.Counts ctx = some cl2 ∧ cl2.length = s.Bandits.length ∧
      cl2.get? i = some (((k + qs.length : ℕ)) : ℤ) ∧
      mapLookup s2.Rewards ctx = some rl2 ∧ rl2.length = s.Bandits.length ∧
      rl2.get? i = some ((S + qs.sum) / (((k + qs.length : ℕ)) : ℚ)) := by
  intro qs
  induction qs with
  | nil =>
      intro s cl rl k S hb huniq hcl hclen hc0 hrl hrlen hq0 hkS
      exact ⟨s, cl, rl, rfl, rfl, rfl, hcl, hclen, by simpa using hc0, hrl,
        hrlen, by simpa using hq0⟩
  | cons q qs ih =>
      intro s cl rl k S hb huniq hcl hclen hc0 hrl hrlen hq0 hkS
      have hiN : i < s.Bandits.length := (List.get?_eq_some.mp hb).1
      have hicl : i < cl.length := by omega
      have hirl : i < rl.length := by omega
      have h1 := UpdateReward_unique_match s ctx b q i cl rl ((k : ℤ)) (S / (k : ℚ))
        hb huniq hcl hrl hc0 hq0
      have hval : (S / (k : ℚ) * ((((k : ℤ) + 1 - 1 : ℤ)) : ℚ) + q) /
          ((((k : ℤ) + 1 : ℤ)) : ℚ) = (S + q) / (((k + 1 : ℕ)) : ℚ) := by
        have h0 : ((k : ℤ) + 1 - 1 : ℤ) = (k : ℤ) := by ring
        rw [h0]
        push_cast
        rcases hkS with hk | hS
        · rw [div_mul_cancel₀ S (Nat.cast_ne_zero.mpr hk : (k : ℚ) ≠ 0)]
        · subst hS
          simp
      rw [hval] at h1
      obtain ⟨s2, cl2, rl2, hK, hB, hE, hc2, hcl2len, hc2i, hr2, hrl2len, hr2i⟩ :=
        ih { s with
              Counts := mapInsert s.Counts ctx (cl.set i ((k : ℤ) + 1)),
              Rewards := mapInsert s.Rewards ctx
                (rl.set i ((S + q) / (((k + 1 : ℕ)) : ℚ))) }
          (cl.set i ((k : ℤ) + 1)) (rl.set i ((S + q) / (((k + 1 : ℕ)) : ℚ)))
          (k + 1) (S + q) hb huniq
          (mapLookup_insert_self _ _ _) (by simp [List.length_set, hclen])
          (by rw [List.get?_eq_getElem?, List.getElem?_set_eq_of_lt _ hicl]
              push_cast
              rfl)
          (mapLookup_insert_self _ _ _) (by simp [List.length_set, hrlen])
          (by rw [List.get?_eq_getElem?, List.getElem?_set_eq_of_lt _ hirl])
          (Or.inl (Nat.succ_ne_zero k))
      have hlen : k + (q :: qs).length = k + 1 + qs.length := by
        simp [List.length_cons]
        omega
      have hsum : S + (q :: qs).sum = S + q + qs.sum := by
        simp [List.sum_cons]
        ring
      refine ⟨s2, cl2, rl2, ?_, hB, hE, hc2, hcl2len, ?_, hr2, hrl2len, ?_⟩
      · simp only [updateRewardK]
        rw [h1]
        exact hK
      · rw [hlen]
        exact hc2i
      · rw [hsum, hlen]
        exact hr2i

/-- C1: for a context whose reward/count slots are pre-initialized (length =
len(arms), all zero) and an arm occurring at exactly one catalog index,
after K successive UpdateReward calls with observed rewards r1..rK the
stored count at that index is K and the stored reward is the arithmetic
mean of r1..rK, reached through the incremental formula
newAvg = (oldAvg*(newCount-1) + observedReward)/newCount at each step. -/
theorem updateReward_incremental_mean (s : EpsilonGreedyStrategy)
    (ctx : Context) (b : Bandit) (i : ℕ) (qs : List ℚ)
    (hb : s.Bandits.get? i = some b)
    (huniq : ∀ j, j ∈ List.range s.Bandits.length → j ≠ i →
       (s.Bandits.get? j).map Bandit.ref ≠ some b.ref)
    (hC : mapLookup s.Counts ctx = some (List.replicate s.Bandits.length 0))
    (hR : mapLookup s.Rewards ctx = some (List.replicate s.Bandits.length 0))
    (_hne : qs ≠ []) :
    ∃ s2 cl2 rl2,
      updateRewardK ctx b qs s = some s2 ∧
      mapLookup s2.Counts ctx = some cl2 ∧
      cl2.get? i = some (((qs.length : ℕ)) : ℤ) ∧
      mapLookup s2.Rewards ctx = some rl2 ∧
      rl2.get? i = some (qs.sum / ((qs.length : ℕ) : ℚ)) := by
  have hiN : i < s.Bandits.length := (List.get?_eq_some.mp hb).1
  have hrep0 : (List.replicate s.Bandits.length (0 : ℤ)).get? i = some (((0 : ℕ)) : ℤ) := by
    simp [List.get?_eq_getElem?, List.getElem?_replicate, hiN]
  have hrepq : (List.replicate s.Bandits.length (0 : ℚ)).get? i =
      some ((0 : ℚ) / (((0 : ℕ)) : ℚ)) := by
    simp [List.get?_eq_getElem?, List.getElem?_replicate, hiN]
  obtain ⟨s2, cl2, rl2, h1, _, _, h4, _, h6, h7, _, h9⟩ :=
    updateRewardK_inv ctx b i qs s (List.replicate s.Bandits.length 0)
      (List.replicate s.Bandits.length 0) 0 0 hb huniq hC (by simp) hrep0 hR
      (by simp) hrepq (Or.inr rfl)
  exact ⟨s2, cl2, rl2, h1, h4, by simpa using h6, h7, by simpa using h9⟩

/-- Witness for C1: two updates with rewards 1 and 0 on the one-arm strategy
leave count 2 and mean 1/2 at index 0. -/
theorem updateReward_incremental_mean_w :
    ∃ s2 cl2 rl2,
      updateRewardK ctxW banditW [(1 : ℚ), 0] stratW = some s2 ∧
      mapLookup s2.Counts ctxW = some cl2 ∧
      cl2.get? 0 = some ((([(1 : ℚ), 0].length : ℕ)) : ℤ) ∧
      mapLookup s2.Rewards ctxW = some rl2 ∧
      rl2.get? 0 = some (List.sum [(1 : ℚ), 0] / (([(1 : ℚ), 0].length : ℕ) : ℚ)) :=
  updateReward_incremental_mean stratW ctxW banditW 0 [(1 : ℚ), 0]
    (by decide) (by decide) (by decide) (by decide) (by decide)

theorem updateRewardLoop_missing (ctx : Context) (b : Bandit) (q : ℚ) :
    ∀ (l : List ℕ) (s : EpsilonGreedyStrategy),
    mapLookup s.Counts ctx = none →
    (∃ j, j ∈ l ∧ (s.Bandits.get? j).map Bandit.ref = some b.ref) →
    updateRewardLoop ctx b q l s = none := by
  intro l
  induction l with
  | nil =>
      intro s _ h
      rcases h with ⟨j, hj, _⟩
      simp at hj
  | cons i rest ih =>
      intro s hc h
      cases hbi : s.Bandits.get? i with
      | none =>
          have hstep : updateRewardStep ctx b q s i = some s := by
            unfold updateRewardStep
            rw [hbi]
          simp only [updateRewardLoop]
          rw [hstep]
          apply ih s hc
          rcases h with ⟨j, hj, hmap⟩
          rcases List.mem_cons.mp hj with rfl | hjr
          · rw [hbi] at hmap
            simp at hmap
          · exact ⟨j, hjr, hmap⟩
      | some bi =>
          by_cases href : bi.ref = b.ref
          · have hstep : updateRewardStep ctx b q s i = none := by
              unfold updateRewardStep
              rw [hbi]
              simp [href, hc]
            simp only [updateRewardLoop]
            rw [hstep]
          · have hstep : updateRewardStep ctx b q s i = some s := by
              unfold updateRewardStep
              rw [hbi]
              simp [href]
            simp only [updateRewardLoop]
            rw [hstep]
            apply ih s hc
            rcases h with ⟨j, hj, hmap⟩
            rcases List.mem_cons.mp hj with rfl | hjr
            · rw [hbi] at hmap
              simp at hmap
              exact absurd hmap href
            · exact ⟨j, hjr, hmap⟩

/-- C8 counterexample: updating with an arm whose pointer is not in the
catalog (ref 5) succeeds silently and leaves the state unchanged — the
claimed loud failure does not happen. -/
theorem updateReward_unknown_arm_cex :
    UpdateReward stratW ctxW ⟨5, "X", []⟩ (1/2) = some stratW := rfl

/-- C8 (amended): updating a context whose slots were never initialized
with an arm that occurs in the catalog panics (index out of range on the
nil slice) — a loud failure; but updating with an arm not in the catalog
matches no index and silently leaves the state unchanged. -/
theorem updateReward_failure_modes :
    (∀ (s : EpsilonGreedyStrategy) (ctx : Context) (b : Bandit) (q : ℚ),
       mapLookup s.Counts ctx = none → b.ref ∈ s.Bandits.map Bandit.ref →
       UpdateReward s ctx b q = none) ∧
    (∀ (s : EpsilonGreedyStrategy) (ctx : Context) (b : Bandit) (q : ℚ),
       b.ref ∉ s.Bandits.map Bandit.ref →
       UpdateReward s ctx b q = some s) := by
  constructor
  · intro s ctx b q hc hmem
    rcases List.mem_map.mp hmem with ⟨bj, hbjmem, hbjref⟩
    rcases List.mem_iff_get?.mp hbjmem with ⟨j, hj⟩
    have hjN : j < s.Bandits.length := (List.get?_eq_some.mp hj).1
    apply updateRewardLoop_missing ctx b q (List.range s.Bandits.length) s hc
    refine ⟨j, by simpa [List.mem_range] using hjN, ?_⟩
    rw [hj]
    simp [hbjref]
  · intro s ctx b q hmem
    apply updateRewardLoop_noop
    intro j hj bj hbj href
    exact hmem (List.mem_map.mpr ⟨bj, List.get?_mem hbj, href⟩)

/-- Witness for the amended C8: the unseen-context case panics on the
one-arm strategy with empty maps; the unknown-arm case returns the state
unchanged. -/
theorem updateReward_failure_modes_w :
    UpdateReward ⟨1/10, [banditW], [], []⟩ ctxW banditW 1 = none ∧
    UpdateReward stratW ctxW ⟨7, "Z", []⟩ 1 = some stratW :=
  ⟨updateReward_failure_modes.1 ⟨1/10, [banditW], [], []⟩ ctxW banditW 1
      (by decide) (by decide),
   updateReward_failure_modes.2 stratW ctxW ⟨7, "Z", []⟩ 1 (by decide)⟩

/-- C2: with explorationRate 0 and a nonempty recorded reward sequence for
the context, SelectBandit deterministically exploits: it returns the arm
whose running-average reward is maximal, and among equal maxima the one at
the lowest catalog index.  The reward slice has the data-model invariant
length (= number of arms); rand.Float64 outputs are nonnegative. -/
theorem selectBandit_exploit_max (s : EpsilonGreedyStrategy) (ctx : Context)
    (r : Rng) (rs : List ℚ)
    (hEps : s.Epsilon = 0) (hd : 0 ≤ r.floats r.pos)
    (hrs : mapLookup s.Rewards ctx = some rs) (hne : rs ≠ [])
    (hlen : rs.length = s.Bandits.length) :
    ∃ i b m, SelectBandit s ctx r = some (b, r.next) ∧
      s.Bandits.get? i = some b ∧ rs.get? i = some m ∧
      (∀ j x, rs.get? j = some x → x ≤ m) ∧
      (∀ j x, j < i → rs.get? j = some x → x < m) := by
  cases rs with
  | nil => exact absurd rfl hne
  | cons q0 rest =>
      have hspec := maxLoop_spec (q0 :: rest) (q0 :: rest) 0 0 q0
        (by intro k; simp) rfl (by intro j x hj; omega) (by intro j x hj; omega)
      obtain ⟨hmi, hle, hlt⟩ := hspec
      have hmiN : (maxLoop (q0 :: rest) 0 q0 0).2 < (q0 :: rest).length :=
        (List.get?_eq_some.mp hmi).1
      have hmiB : (maxLoop (q0 :: rest) 0 q0 0).2 < s.Bandits.length := by omega
      have hb : s.Bandits.get? (maxLoop (q0 :: rest) 0 q0 0).2 =
          some (s.Bandits.get ⟨(maxLoop (q0 :: rest) 0 q0 0).2, hmiB⟩) :=
        List.get?_eq_get hmiB
      refine ⟨(maxLoop (q0 :: rest) 0 q0 0).2,
        s.Bandits.get ⟨(maxLoop (q0 :: rest) 0 q0 0).2, hmiB⟩,
        (maxLoop (q0 :: rest) 0 q0 0).1, ?_, hb, hmi, ?_, ?_⟩
      · unfold SelectBandit
        rw [hrs]
        simp only [Option.getD_some, List.length_cons]
        rw [if_neg (by push_neg; exact ⟨by rw [hEps]; exact hd, by omega⟩)]
        rw [hb]
      · intro j x hx
        have hjlen : j < (q0 :: rest).length := (List.get?_eq_some.mp hx).1
        exact hle j x (by simpa using hjlen) hx
      · intro j x hj hx
        exact hlt j x hj hx

/-- Witness for C2: a two-arm strategy with rewards [0, 1] for ctxW and
epsilon 0 exploits deterministically. -/
theorem selectBandit_exploit_max_w :
    ∃ i b m,
      SelectBandit ⟨0, [⟨0, "A", []⟩, ⟨1, "B", []⟩], [(ctxW, [0, 1])], []⟩ ctxW
        (rngZero 0) = some (b, (rngZero 0).next) ∧
      ([⟨0, "A", []⟩, ⟨1, "B", []⟩] : List Bandit).get? i = some b ∧
      ([(0 : ℚ), 1]).get? i = some m ∧
      (∀ j x, ([(0 : ℚ), 1]).get? j = some x → x ≤ m) ∧
      (∀ j x, j < i → ([(0 : ℚ), 1]).get? j = some x → x < m) :=
  selectBandit_exploit_max ⟨0, [⟨0, "A", []⟩, ⟨1, "B", []⟩], [(ctxW, [0, 1])], []⟩
    ctxW (rngZero 0) [(0 : ℚ), 1] rfl (by decide) (by decide) (by decide) rfl

/-- C3: for any catalog of size at least 1, any context, any exploration
rate and any random outcome, SelectBandit returns an arm of the catalog
(assuming the data-model invariant that every recorded reward slice has the
catalog length). -/
theorem selectBandit_total (s : EpsilonGreedyStrategy) (ctx : Context) (r : Rng)
    (hN : 1 ≤ s.Bandits.length)
    (hInv : ∀ c l, mapLookup s.Rewards c = some l → l.length = s.Bandits.length) :
    ∃ b r2, SelectBandit s ctx r = some (b, r2) ∧ b ∈ s.Bandits := by
  by_cases hcond : r.floats r.pos < s.Epsilon ∨
      ((mapLookup s.Rewards ctx).getD []).length = 0
  · have hlt : r.next.ints r.next.pos % s.Bandits.length < s.Bandits.length :=
      Nat.mod_lt _ (by omega)
    have hb : s.Bandits.get? (r.next.ints r.next.pos % s.Bandits.length) =
        some (s.Bandits.get ⟨r.next.ints r.next.pos % s.Bandits.length, hlt⟩) :=
      List.get?_eq_get hlt
    refine ⟨s.Bandits.get ⟨r.next.ints r.next.pos % s.Bandits.length, hlt⟩,
      r.next.next, ?_, List.get?_mem hb⟩
    unfold SelectBandit
    rw [if_pos hcond]
    unfold explore
    rw [if_neg (by omega)]
    rw [hb]
  · push_neg at hcond
    obtain ⟨hd, hlen0⟩ := hcond
    cases hlook : mapLookup s.Rewards ctx with
    | none =>
        rw [hlook] at hlen0
        simp at hlen0
    | some rs =>
        rw [hlook] at hlen0
        simp only [Option.getD_some] at hlen0
        have hrsN : rs.length = s.Bandits.length := hInv ctx rs hlook
        cases rs with
        | nil => simp at hlen0
        | cons q0 rest =>
            obtain ⟨hmi, _, _⟩ := maxLoop_spec (q0 :: rest) (q0 :: rest) 0 0 q0
              (by intro k; simp) rfl (by intro j x hj; omega) (by intro j x hj; omega)
            have hmiN : (maxLoop (q0 :: rest) 0 q0 0).2 < (q0 :: rest).length :=
              (List.get?_eq_some.mp hmi).1
            have hmiB : (maxLoop (q0 :: rest) 0 q0 0).2 < s.Bandits.length := by
              omega
            have hb : s.Bandits.get? (maxLoop (q0 :: rest) 0 q0 0).2 =
                some (s.Bandits.get ⟨(maxLoop (q0 :: rest) 0 q0 0).2, hmiB⟩) :=
              List.get?_eq_get hmiB
            refine ⟨s.Bandits.get ⟨(maxLoop (q0 :: rest) 0 q0 0).2, hmiB⟩,
              r.next, ?_, List.get?_mem hb⟩
            unfold SelectBandit
            rw [hlook]
            simp only [Option.getD_some, List.length_cons]
            rw [if_neg (by push_neg; exact ⟨hd, by omega⟩)]
            rw [hb]

/-- Witness for C3: the one-arm strategy with no recorded rewards returns
its only arm under the zero stream. -/
theorem selectBandit_total_w :
    ∃ b r2,
      SelectBandit ⟨1/10, [banditW], [], []⟩ ctxW (rngZero 0) = some (b, r2) ∧
      b ∈ ([banditW] : List Bandit) :=
  selectBandit_total ⟨1/10, [banditW], [], []⟩ ctxW (rngZero 0) (by decide)
    (by intro c l h; simp [mapLookup] at h)

/-- C4: for a context with no recorded reward data, SelectBandit always
takes the exploration branch — for every exploration rate, including 0 —
and the chosen arm is the catalog entry at the uniformly drawn index
(the rand.Intn draw reduced mod the catalog size). -/
theorem selectBandit_unseen (s : EpsilonGreedyStrategy) (ctx : Context) (r : Rng)
    (hU : mapLookup s.Rewards ctx = none) (hN : 1 ≤ s.Bandits.length) :
    SelectBandit s ctx r = explore s r.next ∧
    ∃ b, explore s r.next = some (b, r.next.next) ∧
      s.Bandits.get? (r.next.ints r.next.pos % s.Bandits.length) = some b := by
  constructor
  · unfold SelectBandit
    rw [hU]
    simp
  · have hlt : r.next.ints r.next.pos % s.Bandits.length < s.Bandits.length :=
      Nat.mod_lt _ (by omega)
    have hb : s.Bandits.get? (r.next.ints r.next.pos % s.Bandits.length) =
        some (s.Bandits.get ⟨r.next.ints r.next.pos % s.Bandits.length, hlt⟩) :=
      List.get?_eq_get hlt
    refine ⟨s.Bandits.get ⟨r.next.ints r.next.pos % s.Bandits.length, hlt⟩, ?_, hb⟩
    unfold explore
    rw [if_neg (by omega)]
    rw [hb]

/-- Witness for C4: a context absent from the reward map of the one-arm
strategy explores even though nothing forbids exploitation otherwise. -/
theorem selectBandit_unseen_w :
    SelectBandit stratW ⟨"v", "", "", "d"⟩ (rngZero 0) =
      explore stratW (rngZero 0).next ∧
    ∃ b, explore stratW (rngZero 0).next = some (b, (rngZero 0).next.next) ∧
      stratW.Bandits.get?
        ((rngZero 0).next.ints (rngZero 0).next.pos % stratW.Bandits.length) =
        some b :=
  selectBandit_unseen stratW ⟨"v", "", "", "d"⟩ (rngZero 0) (by decide) (by decide)

theorem withRefs_map_table : ∀ (ds : List BanditData) (n : ℕ),
    (withRefs ds n).map Bandit.ContextRewards = ds.map BanditData.ContextRewards := by
  intro ds
  induction ds with
  | nil => intro n; rfl
  | cons d rest ih => intro n; simp [withRefs, ih]

theorem withRefs_map_item : ∀ (ds : List BanditData) (n : ℕ),
    (withRefs ds n).map Bandit.ItemID = ds.map BanditData.ItemID := by
  intro ds
  induction ds with
  | nil => intro n; rfl
  | cons d rest ih => intro n; simp [withRefs, ih]

/-- C6 counterexample: two strategies with identical ordered item
identifiers and identical reward and count sequences serialize to different
blobs when their synthetic accumulator tables differ — so the persisted
blob does not consist exactly of the arm catalog and the reward/count
sequences: the accumulators are persisted, not discarded. -/
theorem saveState_accumulators_cex :
    SaveState ⟨1/10, [⟨0, "A", []⟩], [], []⟩ ≠
      SaveState ⟨1/10, [⟨0, "A", [(ctxW, 1)]⟩], [], []⟩ ∧
    ([⟨0, "A", []⟩] : List Bandit).map Bandit.ItemID =
      ([⟨0, "A", [(ctxW, 1)]⟩] : List Bandit).map Bandit.ItemID := by
  constructor
  · intro h
    have h2 := congrArg SavedBlob.Bandits h
    simp [SaveState] at h2
  · rfl

/-- C6 (amended): the persisted blob holds the strategy's exported fields —
epsilon, the ordered arm catalog together with each arm's synthetic
context-reward table, and the per-context reward and count sequences; the
synthetic accumulators are included in the blob (and survive a save/load
round trip) rather than being discarded. -/
theorem saveState_contents (s : EpsilonGreedyStrategy) :
    (SaveState s).Bandits.map BanditData.ContextRewards =
      s.Bandits.map Bandit.ContextRewards ∧
    (SaveState s).Bandits.map BanditData.ItemID = s.Bandits.map Bandit.ItemID ∧
    (SaveState s).Rewards = s.Rewards ∧ (SaveState s).Counts = s.Counts ∧
    (SaveState s).Epsilon = s.Epsilon ∧
    (LoadState freshStrategy (SaveState s)).Bandits.map Bandit.ContextRewards =
      s.Bandits.map Bandit.ContextRewards := by
  refine ⟨?_, ?_, rfl, rfl, rfl, ?_⟩
  · simp [SaveState, List.map_map]
  · simp [SaveState, List.map_map]
  · show (withRefs (SaveState s).Bandits 0).map Bandit.ContextRewards = _
    rw [withRefs_map_table]
    simp [SaveState, List.map_map]

/-- C7: load(save(state)) reproduces the state field-for-field: the same
ordered arm catalog (item identifiers and accumulator tables; the decoded
*Bandit pointers are fresh allocations) and the same reward and count
sequences for every context key of the original, including empty and zero
entries.  The hypotheses say the two Go maps carry no duplicate keys, which
every Go map guarantees. -/
theorem loadState_roundTrip (s : EpsilonGreedyStrategy)
    (hR : keysNodup s.Rewards) (hC : keysNodup s.Counts) :
    (LoadState freshStrategy (SaveState s)).Bandits.map Bandit.ItemID =
      s.Bandits.map Bandit.ItemID ∧
    (LoadState freshStrategy (SaveState s)).Bandits.map Bandit.ContextRewards =
      s.Bandits.map Bandit.ContextRewards ∧
    (∀ c, mapLookup (LoadState freshStrategy (SaveState s)).Rewards c =
      mapLookup s.Rewards c) ∧
    (∀ c, mapLookup (LoadState freshStrategy (SaveState s)).Counts c =
      mapLookup s.Counts c) := by
  refine ⟨?_, ?_, ?_, ?_⟩
  · show (withRefs (SaveState s).Bandits 0).map Bandit.ItemID = _
    rw [withRefs_map_item]
    simp [SaveState, List.map_map]
  · show (withRefs (SaveState s).Bandits 0).map Bandit.ContextRewards = _
    rw [withRefs_map_table]
    simp [SaveState, List.map_map]
  · intro c
    have h := mapLookup_foldl_insert s.Rewards [] c hR (by intro k v _; rfl)
    show mapLookup (s.Rewards.foldl (fun m kv => mapInsert m kv.1 kv.2) []) c = _
    cases hx : mapLookup s.Rewards c <;> rw [hx] at h <;> simpa using h
  · intro c
    have h := mapLookup_foldl_insert s.Counts [] c hC (by intro k v _; rfl)
    show mapLookup (s.Counts.foldl (fun m kv => mapInsert m kv.1 kv.2) []) c = _
    cases hx : mapLookup s.Counts c <;> rw [hx] at h <;> simpa using h

/-- Witness for C7: a concrete strategy with an accumulator table, an empty
reward slice entry and a zero count entry round-trips. -/
theorem loadState_roundTrip_w :
    (LoadState freshStrategy (SaveState
        ⟨1/10, [⟨0, "A", [(ctxW, 1)]⟩], [(ctxW, [])], [(ctxW, [0])]⟩)).Bandits.map
        Bandit.ItemID =
      ([⟨0, "A", [(ctxW, 1)]⟩] : List Bandit).map Bandit.ItemID ∧
    (LoadState freshStrategy (SaveState
        ⟨1/10, [⟨0, "A", [(ctxW, 1)]⟩], [(ctxW, [])], [(ctxW, [0])]⟩)).Bandits.map
        Bandit.ContextRewards =
      ([⟨0, "A", [(ctxW, 1)]⟩] : List Bandit).map Bandit.ContextRewards ∧
    mapLookup (LoadState freshStrategy (SaveState
        ⟨1/10, [⟨0, "A", [(ctxW, 1)]⟩], [(ctxW, [])], [(ctxW, [0])]⟩)).Rewards ctxW =
      mapLookup [(ctxW, ([] : List ℚ))] ctxW ∧
    mapLookup (LoadState freshStrategy (SaveState
        ⟨1/10, [⟨0, "A", [(ctxW, 1)]⟩], [(ctxW, [])], [(ctxW, [0])]⟩)).Counts ctxW =
      mapLookup [(ctxW, ([0] : List ℤ))] ctxW := by
  have h := loadState_roundTrip
    ⟨1/10, [⟨0, "A", [(ctxW, 1)]⟩], [(ctxW, [])], [(ctxW, [0])]⟩
    (by decide) (by decide)
  exact ⟨h.1, h.2.1, h.2.2.1 ctxW, h.2.2.2 ctxW⟩

/-- C10 (code bug in src/main.go:158): when reading the persisted state
fails, the select driver does not terminate with a diagnostic about the
state: LoadState's error value is discarded, selection proceeds against the
fresh empty model, and the SelectBandit call dies in rand.Intn(0).  The
first equation shows that the selection is still attempted with the fresh
model; the second that it panics (none) for every context and every random
stream, instead of the claimed diagnostic termination before selection. -/
theorem selectMode_ignores_load_error (u t w d : String) (r : Rng) :
    loadModelAndSelectAnItem none u t w d r =
      (match SelectBandit freshStrategy ⟨u, t, w, d⟩ r with
       | none => none
       | some br => some (br.1.ItemID, br.2)) ∧
    loadModelAndSelectAnItem none u t w d r = none := by
  have hsel : SelectBandit freshStrategy ⟨u, t, w, d⟩ r = none := by
    unfold SelectBandit explore
    simp [freshStrategy, mapLookup]
  constructor
  · rfl
  · simp only [loadModelAndSelectAnItem]
    rw [hsel]

theorem updateExisting_none :
    ∀ (bs : List Bandit) (item : String) (click : Bool) (ctx : Context),
    (∀ b2 ∈ bs, b2.ItemID ≠ item) → updateExisting bs item click ctx = none := by
  intro bs
  induction bs with
  | nil => intro item click ctx _; rfl
  | cons b rest ih =>
      intro item click ctx h
      have hb : b.ItemID ≠ item := h b (List.mem_cons_self b rest)
      simp only [updateExisting, if_neg hb]
      rw [ih item click ctx (fun b2 hb2 => h b2 (List.mem_cons_of_mem _ hb2))]

/-- C5 counterexample: the first (non-click) record for item "A" creates
the arm with accumulator 0.0 for its context — not -0.1, as "subtract 0.1
on every non-click record naming the arm's item, including the record that
creates the arm" would require. -/
theorem accumulator_first_record_cex :
    (getTrainingData [rowW]).2 = [⟨0, "A", [(ctxW, 0)]⟩] ∧ ((0 : ℚ)) ≠ -(1/10) := by
  constructor
  · rfl
  · norm_num

/-- C5 (amended): for every record naming an item that already has an arm,
that arm's accumulator for the record's context moves by exactly +1.0 on a
click and -0.1 on a non-click; the record that creates an arm initializes
the accumulator to 1.0 on a click and 0.0 on a non-click. -/
theorem accumulator_update_rule :
    (∀ (pre post : List Bandit) (b : Bandit) (click : Bool) (ctx : Context)
       (item : String),
       b.ItemID = item → (∀ b2 ∈ pre, b2.ItemID ≠ item) →
       updateExisting (pre ++ b :: post) item click ctx =
         some (pre ++ recordReward b click ctx :: post)) ∧
    (∀ (b : Bandit) (click : Bool) (ctx : Context),
       mapLookup (recordReward b click ctx).ContextRewards ctx =
         some ((mapLookup b.ContextRewards ctx).getD 0 +
           (if click then 1 else -(1/10)))) ∧
    (∀ (cs : List Context) (bs : List Bandit) (row : TrainingData),
       (∀ b2 ∈ bs, b2.ItemID ≠ row.ItemID) →
       (processRow (cs, bs) row).2 =
         bs ++ [⟨bs.length, row.ItemID,
           [(deriveContext row, if row.HasClick then 1 else 0)]⟩]) := by
  refine ⟨?_, ?_, ?_⟩
  · intro pre
    induction pre with
    | nil =>
        intro post b click ctx item hitem _
        simp [updateExisting, hitem]
    | cons p rest ih =>
        intro post b click ctx item hitem h
        have hp : p.ItemID ≠ item := h p (List.mem_cons_self p rest)
        have hres := ih post b click ctx item hitem
          (fun b2 hb2 => h b2 (List.mem_cons_of_mem _ hb2))
        simp only [List.cons_append, updateExisting, if_neg hp]
        show (match updateExisting (rest ++ b :: post) item click ctx with
          | none => none
          | some rest2 => some (p :: rest2)) =
            some (p :: (rest ++ recordReward b click ctx :: post))
        rw [hres]
  · intro b click ctx
    simp [recordReward, mapLookup_insert_self]
  · intro cs bs row h
    simp only [processRow]
    rw [updateExisting_none bs row.ItemID row.HasClick (deriveContext row) h]

/-- Witness for the amended C5: updating the existing one-arm catalog after
a non-click subtracts 0.1 from the stored accumulator, and a creating
record starts at 0.0 for a non-click. -/
theorem accumulator_update_rule_w :
    updateExisting ([] ++ ⟨0, "A", [(ctxW, 0)]⟩ :: []) "A" false ctxW =
      some ([] ++ recordReward ⟨0, "A", [(ctxW, 0)]⟩ false ctxW :: []) ∧
    mapLookup (recordReward ⟨0, "A", [(ctxW, 0)]⟩ false ctxW).ContextRewards ctxW =
      some ((mapLookup ([(ctxW, 0)] : List (Context × ℚ)) ctxW).getD 0 +
        (if false then 1 else -(1/10))) ∧
    (processRow ([], []) rowW).2 =
      [] ++ [⟨List.length ([] : List Bandit), rowW.ItemID,
        [(deriveContext rowW, if rowW.HasClick then 1 else 0)]⟩] :=
  ⟨accumulator_update_rule.1 [] [] ⟨0, "A", [(ctxW, 0)]⟩ false ctxW "A" rfl
      (by intro b2 hb2; exact absurd hb2 (List.not_mem_nil b2)),
   accumulator_update_rule.2.1 ⟨0, "A", [(ctxW, 0)]⟩ false ctxW,
   accumulator_update_rule.2.2 [] [] rowW
      (by intro b2 hb2; exact absurd hb2 (List.not_mem_nil b2))⟩

theorem trial_sTrain (x : ℚ) (k : ℤ) (p : ℕ) :
    trial ctxW (sTrain x k, rngZero p) =
      some (sTrain ((x * (k : ℚ) + -(1/10)) / ((k : ℚ) + 1)) (k + 1),
        rngZero (p + 2)) := by
  have hsel : SelectBandit (sTrain x k) ctxW (rngZero p) =
      some (banditA, rngZero (p + 2)) := by
    have hcond : (rngZero p).floats (rngZero p).pos < (sTrain x k).Epsilon ∨
        ((mapLookup (sTrain x k).Rewards ctxW).getD []).length = 0 :=
      Or.inl (by norm_num [rngZero, sTrain])
    unfold SelectBandit
    rw [if_pos hcond]
    unfold explore
    rw [if_neg (show ¬ (sTrain x k).Bandits.length = 0 by norm_num [sTrain])]
    have hidx : (rngZero p).next.ints (rngZero p).next.pos %
        (sTrain x k).Bandits.length = 0 := rfl
    rw [hidx]
    rw [show (sTrain x k).Bandits.get? 0 = some banditA from rfl]
    rfl
  have hpull : banditA.Pull ctxW = -(1/10) := by
    simp [Bandit.Pull, banditA, mapLookup]
  have hb : (sTrain x k).Bandits.get? 0 = some banditA := rfl
  have huniq : ∀ j, j ∈ List.range (sTrain x k).Bandits.length → j ≠ 0 →
      ((sTrain x k).Bandits.get? j).map Bandit.ref ≠ some banditA.ref := by
    intro j hj hne
    rw [List.mem_range] at hj
    have hlen : (sTrain x k).Bandits.length = 1 := rfl
    rw [hlen] at hj
    omega
  have hcl : mapLookup (sTrain x k).Counts ctxW = some [k] := by
    simp [sTrain, mapLookup]
  have hrl : mapLookup (sTrain x k).Rewards ctxW = some [x] := by
    simp [sTrain, mapLookup]
  have hupd := UpdateReward_unique_match (sTrain x k) ctxW banditA (-(1/10)) 0
    [k] [x] k x hb huniq hcl hrl rfl rfl
  have hstate : ({ sTrain x k with
      Counts := mapInsert (sTrain x k).Counts ctxW (([k] : List ℤ).set 0 (k + 1)),
      Rewards := mapInsert (sTrain x k).Rewards ctxW (([x] : List ℚ).set 0
        ((x * (((k + 1 - 1 : ℤ)) : ℚ) + -(1/10)) / (((k + 1 : ℤ)) : ℚ))) } :
      EpsilonGreedyStrategy) =
      sTrain ((x * (k : ℚ) + -(1/10)) / ((k : ℚ) + 1)) (k + 1) := by
    simp only [sTrain, mapInsert, List.set]
    norm_num
  simp only [trial]
  rw [hsel]
  show (match UpdateReward (sTrain x k) ctxW banditA (banditA.Pull ctxW) with
    | none => none
    | some s2 => some (s2, rngZero (p + 2))) =
      some (sTrain ((x * (k : ℚ) + -(1/10)) / ((k : ℚ) + 1)) (k + 1),
        rngZero (p + 2))
  rw [hpull, hupd, hstate]

theorem trials_succ (ctx : Context) (n : ℕ) (sr : EpsilonGreedyStrategy × Rng) :
    trials ctx (n + 1) sr =
      match trial ctx sr with
      | none => none
      | some sr2 => trials ctx n sr2 := rfl

theorem trials_sTrain : ∀ (n : ℕ) (k : ℤ), 0 ≤ k → ∀ (p : ℕ),
    trials ctxW n (sTrain (-(1/10)) k, rngZero p) =
      some (sTrain (-(1/10)) (k + (n : ℤ)), rngZero (p + 2 * n)) := by
  intro n
  induction n with
  | zero =>
      intro k _ p
      simp [trials]
  | succ n ih =>
      intro k hk p
      have harith : ((-(1/10) : ℚ) * (k : ℚ) + -(1/10)) / ((k : ℚ) + 1) =
          -(1/10) := by
        have h0 : (0 : ℚ) ≤ (k : ℚ) := by exact_mod_cast hk
        have hne : (k : ℚ) + 1 ≠ 0 := by linarith
        field_simp
        ring
      have hstep := trial_sTrain (-(1/10)) k p
      rw [harith] at hstep
      simp only [trials]
      rw [hstep]
      show trials ctxW n (sTrain (-(1/10)) (k + 1), rngZero (p + 2)) = _
      rw [ih (k + 1) (by omega) (p + 2)]
      have e1 : k + 1 + (n : ℤ) = k + (((n + 1 : ℕ)) : ℤ) := by
        push_cast
        ring
      have e2 : p + 2 + 2 * n = p + 2 * (n + 1) := by ring
      rw [e1, e2]

theorem trainBlock (p : ℕ) :
    trials ctxW 10000 (sTrain 0 0, rngZero p) =
      some (sTrain (-(1/10)) 10000, rngZero (p + 20000)) := by
  have h0 : (10000 : ℕ) = 9999 + 1 := rfl
  rw [h0, trials_succ]
  have hstep := trial_sTrain 0 0 p
  have harith : ((0 : ℚ) * ((0 : ℤ) : ℚ) + -(1/10)) / (((0 : ℤ) : ℚ) + 1) =
      -(1/10) := by norm_num
  rw [harith] at hstep
  rw [hstep]
  show trials ctxW 9999 (sTrain (-(1/10)) (0 + 1), rngZero (p + 2)) = _
  have h1 : (0 : ℤ) + 1 = 1 := by norm_num
  rw [h1]
  rw [trials_sTrain 9999 1 (by norm_num) (p + 2)]
  have e1 : (1 : ℤ) + ((9999 : ℕ) : ℤ) = 10000 := by norm_num
  have e2 : p + 2 + 2 * 9999 = p + 20000 := by ring
  rw [e1, e2]

theorem initSlots_sTrain (x : ℚ) (k : ℤ) :
    ({ sTrain x k with
        Rewards := mapInsert (sTrain x k).Rewards ctxW
          (List.replicate (sTrain x k).Bandits.length 0),
        Counts := mapInsert (sTrain x k).Counts ctxW
          (List.replicate (sTrain x k).Bandits.length 0) } :
      EpsilonGreedyStrategy) = sTrain 0 0 := by
  simp [sTrain, mapInsert, List.replicate]

theorem initSlots_sInit :
    ({ sInit with
        Rewards := mapInsert sInit.Rewards ctxW
          (List.replicate sInit.Bandits.length 0),
        Counts := mapInsert sInit.Counts ctxW
          (List.replicate sInit.Bandits.length 0) } :
      EpsilonGreedyStrategy) = sTrain 0 0 := by
  simp [sInit, sTrain, mapInsert, List.replicate]

theorem trainContexts_nil (sr : EpsilonGreedyStrategy × Rng) :
    trainContexts [] sr = some sr := rfl

theorem trainContexts_cons (c : Context) (rest : List Context)
    (s : EpsilonGreedyStrategy) (r : Rng) :
    trainContexts (c :: rest) (s, r) =
      match trials c 10000
        ({ s with
            Rewards := mapInsert s.Rewards c (List.replicate s.Bandits.length 0),
            Counts := mapInsert s.Counts c (List.replicate s.Bandits.length 0) },
          r) with
      | none => none
      | some sr2 => trainContexts rest sr2 := rfl

theorem trainContexts_cons2 (c : Context) (rest : List Context)
    (s : EpsilonGreedyStrategy) (r : Rng) :
    trainContexts (c :: rest) (s, r) =
      Option.bind
        (trials c 10000
          ({ s with
              Rewards := mapInsert s.Rewards c (List.replicate s.Bandits.length 0),
              Counts := mapInsert s.Counts c (List.replicate s.Bandits.length 0) },
            r))
        (trainContexts rest) := by
  rw [trainContexts_cons]
  cases trials c 10000
      ({ s with
          Rewards := mapInsert s.Rewards c (List.replicate s.Bandits.length 0),
          Counts := mapInsert s.Counts c (List.replicate s.Bandits.length 0) },
        r) with
  | none => rfl
  | some sr2 => rfl

theorem trainRep : ∀ (m : ℕ) (x : ℚ) (k : ℤ) (p : ℕ),
    trainContexts (List.replicate (m + 1) ctxW) (sTrain x k, rngZero p) =
      some (sTrain (-(1/10)) 10000, rngZero (p + 20000 * (m + 1))) := by
  intro m
  induction m with
  | zero =>
      intro x k p
      show trainContexts [ctxW] (sTrain x k, rngZero p) = _
      rw [trainContexts_cons2, initSlots_sTrain, trainBlock p, Option.some_bind,
        trainContexts_nil]
  | succ m ih =>
      intro x k p
      rw [List.replicate_succ]
      rw [trainContexts_cons2, initSlots_sTrain, trainBlock p, Option.some_bind]
      rw [ih (-(1/10)) 10000 (p + 20000)]
      have e2 : p + 20000 + 20000 * (m + 1) = p + 20000 * (m + 1 + 1) := by ring
      rw [e2]

/-- C9 (amended): the training loop executes its body — re-initialize the
context's reward/count slots to zeros of the catalog length, then run
exactly 10000 simulated trials (SelectArm, Pull with default 0.0, and
UpdateReward) — once per OCCURRENCE of a context in the non-deduplicated
record-derived context list, not once per distinct context: a context
occurring m times is initialized m times and receives 10000·m trials
(under the always-explore zero stream each trial consumes two random
values, so 20000·m values are consumed), each re-initialization discarding
the previously learned slots, so the final state equals that of a single
10000-trial pass. -/
theorem trainContexts_per_occurrence (m : ℕ) (hm : 1 ≤ m) (p : ℕ) :
    trainContexts (List.replicate m ctxW) (sInit, rngZero p) =
      some (sTrain (-(1/10)) 10000, rngZero (p + 20000 * m)) := by
  obtain ⟨m2, rfl⟩ : ∃ m2, m = m2 + 1 := ⟨m - 1, by omega⟩
  rw [List.replicate_succ]
  rw [trainContexts_cons2, initSlots_sInit, trainBlock p, Option.some_bind]
  cases m2 with
  | zero =>
      show trainContexts [] (sTrain (-(1/10)) 10000, rngZero (p + 20000)) = _
      rw [trainContexts_nil]
  | succ m3 =>
      rw [trainRep m3 (-(1/10)) 10000 (p + 20000)]
      have e2 : p + 20000 + 20000 * (m3 + 1) = p + 20000 * (m3 + 1 + 1) := by
        ring
      rw [e2]

/-- Witness for the amended C9: one occurrence gives one initialization,
10000 trials and 20000 consumed random values. -/
theorem trainContexts_per_occurrence_w :
    trainContexts (List.replicate 1 ctxW) (sInit, rngZero 0) =
      some (sTrain (-(1/10)) 10000, rngZero (0 + 20000 * 1)) :=
  trainContexts_per_occurrence 1 (by norm_num) 0

theorem getTrainingData_two_rows :
    getTrainingData [rowW, rowW] = ([ctxW, ctxW], [banditA]) := by
  simp only [getTrainingData, List.foldl, processRow, updateExisting,
    recordReward, deriveContext, rowW, mapInsert, mapLookup]
  norm_num [ctxW, banditA]

/-- C9 counterexample: two identical non-click records for item "A" yield
the context list [ctxW, ctxW] — one distinct context — yet training runs
the initialize-and-10000-trials block twice: 40000 random values are
consumed (20000 trials at two values each under the always-explore zero
stream), not the 20000 values that exactly 10000 trials for the single
distinct context would consume, and the slots are re-initialized before
the second block. -/
theorem trainModel_duplicate_context_cex :
    trainModel [rowW, rowW] (rngZero 0) =
      some (sTrain (-(1/10)) 10000, rngZero 40000) ∧
    (getTrainingData [rowW, rowW]).1 = [ctxW, ctxW] ∧
    ((getTrainingData [rowW, rowW]).1).dedup = [ctxW] ∧
    (40000 : ℕ) ≠ 2 * 10000 := by
  have hg := getTrainingData_two_rows
  refine ⟨?_, by rw [hg], by rw [hg]; decide, by norm_num⟩
  unfold trainModel
  rw [hg]
  show trainContexts [ctxW, ctxW] (sInit, rngZero 0) = _
  rw [trainContexts_cons2, initSlots_sInit, trainBlock 0, Option.some_bind]
  show trainContexts [ctxW] (sTrain (-(1/10)) 10000, rngZero 20000) = _
  rw [trainContexts_cons2, initSlots_sTrain, trainBlock 20000, Option.some_bind,
    trainContexts_nil]

end Smokey
